import Mathlib

/-!
Verification of the docgram-api document indexing and retrieval pipeline.

The definitions below are a shallow embedding of the Python sources
`src/app/ai/rag.py` (chunking, embedding with retry, upsert, retrieval,
prompt assembly) and `src/app/routers/utils.py` (embedding deletion wrapper,
semantic search).  Text is modelled as `List Char`; character offsets are
naturals (all offsets produced by the code are non-negative, and the one
Python subtraction that can go negative, `end_pos - overlap` inside a
`max(start_pos, ·)`, coincides with truncated natural subtraction because
`start_pos ≥ 0`).  External collaborators (the embedding provider and the
vector index) are passed in as explicit oracle functions, and effectful
calls to them are counted in explicit trace values.
-/

set_option autoImplicit false

namespace Docgram

/-! ### Python string primitives -/

/-- Python `str.split()` with no separator: split on runs of whitespace,
dropping empty pieces.  The accumulator holds the current word reversed. -/
def pySplitGo : List Char → List Char → List (List Char)
  | [], acc => if acc.isEmpty then [] else [acc.reverse]
  | c :: rest, acc =>
    if c.isWhitespace then
      if acc.isEmpty then pySplitGo rest [] else acc.reverse :: pySplitGo rest []
    else
      pySplitGo rest (c :: acc)

/-- Python `text.split()`. -/
def pySplit (text : List Char) : List (List Char) :=
  pySplitGo text []

/-- Scan for the needle starting at index `k`; `fuel` bounds the scan
(callers pass enough fuel to cover the whole haystack). -/
def pyFindAux (text needle : List Char) : Nat → Nat → Option Nat
  | _, 0 => none
  | k, fuel + 1 =>
    if needle.isPrefixOf (text.drop k) then some k else pyFindAux text needle (k + 1) fuel

/-- Python `text.find(needle, start)`: least index `≥ start` where `needle`
occurs, `none` standing for Python's `-1`. -/
def pyFind (text needle : List Char) (start : Nat) : Option Nat :=
  pyFindAux text needle start (text.length + 1 - start)

/-- Python `s.strip()`: drop leading and trailing whitespace. -/
def pyStrip (s : List Char) : List Char :=
  ((s.dropWhile Char.isWhitespace).reverse.dropWhile Char.isWhitespace).reverse

/-- Python slice `text[s:e]` (with `s ≤ e`; out-of-range indices clamp). -/
def listSlice (text : List Char) (s e : Nat) : List Char :=
  (text.drop s).take (e - s)

/-! ### Chunker: `_smart_chunk_text` (src/app/ai/rag.py lines 21-73) -/

/-- One entry of the `token_positions` list: `(token, start_pos, end_pos)`. -/
structure TokPos where
  tok : List Char
  s : Nat
  e : Nat
deriving DecidableEq, Repr

/-- The `token_positions` construction loop (rag.py lines 36-44): for each
token, `find_at = text.find(token, pos)`, with the `-1` fallback taking
`find_at = pos`; the entry is `(token, find_at, find_at + len(token))` and
`pos` advances to the entry's end offset. -/
def tokenPositionsGo (text : List Char) : List (List Char) → Nat → List TokPos
  | [], _ => []
  | t :: ts, pos =>
    let find_at := (pyFind text t pos).getD pos
    ⟨t, find_at, find_at + t.length⟩ :: tokenPositionsGo text ts (find_at + t.length)

/-- Token positions of a text, as computed by `_smart_chunk_text`. -/
def tokenPositions (text : List Char) : List TokPos :=
  tokenPositionsGo text (pySplit text) 0

/-- An emitted chunk `(chunk_text.strip(), start_pos, end_pos)`.  The field
`stop` models Python's `end` (a Lean keyword). -/
structure Chunk where
  text : List Char
  start : Nat
  stop : Nat
deriving DecidableEq, Repr

/-- The inner accumulation loop (rag.py lines 54-61) on the tokens after the
first one of the window: the first token is always taken (the loop cannot
break while `chunk_tokens` is empty), so this scan runs with a non-empty
accumulator and breaks as soon as `e - start_pos > chunk_size`.  Returns the
number of further tokens consumed and the final `end_pos`. -/
def innerScan (chunk_size start_pos : Nat) : Nat → List TokPos → Nat × Nat
  | end_pos, [] => (0, end_pos)
  | end_pos, t :: rest =>
    if t.e - start_pos > chunk_size then (0, end_pos)
    else
      let r := innerScan chunk_size start_pos t.e rest
      (r.1 + 1, r.2)

/-- The outer `while i < n` loop (rag.py lines 48-72), phrased on the suffix
`token_positions[i:]` of the position list; the index `i` of the source
corresponds to the number of already-dropped tokens.  `fuel` bounds the
number of iterations; since every iteration advances `i` by at least one
token, fuel equal to the token count suffices (proved below).  Per
iteration: the window takes the first token plus `innerScan`-many more,
`overlap_target = max(start_pos, end_pos - overlap)`, the advance scan
starts at `j` (`next_i = j`) and moves past tokens whose start offset is
below the target, and the `if next_i == i` progress guard corresponds to
the (unreachable) case `advance = 0`. -/
def chunkLoopF (text : List Char) (chunk_size overlap : Nat) :
    Nat → List TokPos → Option (List Chunk)
  | _, [] => some []
  | 0, _ :: _ => none
  | fuel + 1, t :: rest =>
    let start_pos := t.s
    let scan := innerScan chunk_size start_pos t.e rest
    let end_pos := scan.2
    let afterWindow := rest.drop scan.1
    let overlap_target := max start_pos (end_pos - overlap)
    let skipped := (afterWindow.takeWhile (fun u => decide (u.s < overlap_target))).length
    let advance := if 1 + scan.1 + skipped = 0 then 1 + scan.1 else 1 + scan.1 + skipped
    match chunkLoopF text chunk_size overlap fuel ((t :: rest).drop advance) with
    | none => none
    | some cks => some (⟨pyStrip (listSlice text start_pos end_pos), start_pos, end_pos⟩ :: cks)

/-- Python `_smart_chunk_text(text, chunk_size, overlap)`.  `chunk_size = 0` models
Python's `chunk_size <= 0` `ValueError` (parameters are naturals; no claim
exercises negative parameters).  The `none` branch of the bounded loop is
unreachable (proved below) and is surfaced as a distinguishable error. -/
def smart_chunk_text (text : List Char) (chunk_size overlap : Nat) :
    Except String (List Chunk) :=
  if chunk_size = 0 then .error "chunk_size must be > 0"
  else
    let tokens := pySplit text
    if tokens.isEmpty then .ok []
    else
      let tp := tokenPositionsGo text tokens 0
      match chunkLoopF text chunk_size overlap tp.length tp with
      | some cks => .ok cks
      | none => .error "loop fuel exhausted"

/-! ### Structural facts about the chunker -/

/-- Offsets in a token-position list are monotone: each token starts no
earlier than the running lower bound and ends no earlier than it starts. -/
def PosMono : Nat → List TokPos → Prop
  | _, [] => True
  | lb, t :: rest => lb ≤ t.s ∧ t.s ≤ t.e ∧ PosMono t.e rest

theorem pyFindAux_ge (text needle : List Char) :
    ∀ (fuel k r : Nat), pyFindAux text needle k fuel = some r → k ≤ r := by
  intro fuel
  induction fuel with
  | zero => intro k r h; simp [pyFindAux] at h
  | succ fuel ih =>
    intro k r h
    unfold pyFindAux at h
    by_cases hp : needle.isPrefixOf (text.drop k)
    · simp [hp] at h; omega
    · simp [hp] at h
      have := ih (k + 1) r h
      omega

theorem find_at_ge (text t : List Char) (pos : Nat) :
    pos ≤ (pyFind text t pos).getD pos := by
  cases h : pyFind text t pos with
  | none => simp
  | some r =>
    simp only [Option.getD_some]
    exact pyFindAux_ge text t _ pos r h

theorem tokenPositionsGo_posMono (text : List Char) :
    ∀ (ts : List (List Char)) (pos : Nat), PosMono pos (tokenPositionsGo text ts pos) := by
  intro ts
  induction ts with
  | nil => intro pos; simp [tokenPositionsGo, PosMono]
  | cons t ts ih =>
    intro pos
    simp only [tokenPositionsGo, PosMono]
    refine ⟨find_at_ge text t pos, by omega, ih _⟩

theorem posMono_mem {lb : Nat} :
    ∀ {l : List TokPos}, PosMono lb l → ∀ t ∈ l, lb ≤ t.s ∧ t.s ≤ t.e := by
  intro l
  induction l generalizing lb with
  | nil => intro _ t ht; simp at ht
  | cons u rest ih =>
    intro h t ht
    obtain ⟨h1, h2, h3⟩ := h
    rcases List.mem_cons.mp ht with rfl | hmem
    · exact ⟨h1, h2⟩
    · have := ih h3 t hmem
      exact ⟨by omega, this.2⟩

theorem tokenPositionsGo_length (text : List Char) :
    ∀ (ts : List (List Char)) (pos : Nat), (tokenPositionsGo text ts pos).length = ts.length := by
  intro ts
  induction ts with
  | nil => intro pos; simp [tokenPositionsGo]
  | cons t ts ih => intro pos; simp [tokenPositionsGo, ih]

/-- Specification of the inner accumulation scan: the window end only grows,
the tokens left after the consumed prefix stay monotone above the new end,
and every consumed token ends inside the window. -/
theorem innerScan_spec (cs sp : Nat) :
    ∀ (l : List TokPos) (ep : Nat), PosMono ep l →
      ep ≤ (innerScan cs sp ep l).2 ∧
      PosMono (innerScan cs sp ep l).2 (l.drop (innerScan cs sp ep l).1) ∧
      ∀ t ∈ l.take (innerScan cs sp ep l).1, t.e ≤ (innerScan cs sp ep l).2 := by
  intro l
  induction l with
  | nil =>
    intro ep h
    refine ⟨le_refl _, ?_, ?_⟩ <;> simp [innerScan, PosMono]
  | cons u rest ih =>
    intro ep h
    obtain ⟨h1, h2, h3⟩ := h
    by_cases hbrk : u.e - sp > cs
    · constructor
      · simp [innerScan, hbrk]
      constructor
      · simpa [innerScan, hbrk, PosMono] using ⟨h1, h2, h3⟩
      · simp [innerScan, hbrk]
    · obtain ⟨ih1, ih2, ih3⟩ := ih u.e h3
      constructor
      · simp only [innerScan, if_neg hbrk]
        omega
      constructor
      · simpa only [innerScan, if_neg hbrk, List.drop_succ_cons] using ih2
      · simp only [innerScan, if_neg hbrk, List.take_succ_cons, List.mem_cons]
        rintro t (rfl | hmem)
        · omega
        · exact ih3 t hmem

/-- Specification of the bounded chunking loop: with fuel at least the token
count it never runs out, it emits at most one chunk per token, and every
token lies inside the span of some emitted chunk. -/
theorem chunkLoopF_spec (text : List Char) (cs ov : Nat) :
    ∀ (fuel : Nat) (l : List TokPos) (lb : Nat), PosMono lb l → l.length ≤ fuel →
      ∃ cks, chunkLoopF text cs ov fuel l = some cks ∧
        cks.length ≤ l.length ∧
        ∀ t ∈ l, ∃ c ∈ cks, c.start ≤ t.s ∧ t.e ≤ c.stop := by
  intro fuel
  induction fuel with
  | zero =>
    intro l lb hmono hlen
    match l with
    | [] => exact ⟨[], by simp [chunkLoopF]⟩
    | t :: rest => simp at hlen
  | succ fuel ih =>
    intro l lb hmono hlen
    match l with
    | [] => exact ⟨[], by simp [chunkLoopF]⟩
    | t :: rest =>
      obtain ⟨h1, h2, h3⟩ := hmono
      obtain ⟨hep, hmono2, htake⟩ := innerScan_spec cs t.s rest t.e h3
      set k := (innerScan cs t.s t.e rest).1 with hk
      set ep := (innerScan cs t.s t.e rest).2 with hep2
      have hskip :
          ((rest.drop k).takeWhile (fun u => decide (u.s < max t.s (ep - ov)))).length = 0 := by
        cases hd : rest.drop k with
        | nil => simp
        | cons u tl =>
          have humem : u ∈ rest.drop k := by rw [hd]; exact List.mem_cons_self u tl
          have hus : ep ≤ u.s := (posMono_mem hmono2 u humem).1
          simp only [List.takeWhile_cons, decide_eq_true_eq]
          rw [if_neg (by omega : ¬ (u.s < max t.s (ep - ov)))]
          simp
      have hlen2 : (rest.drop k).length ≤ fuel := by
        have := List.length_drop k rest
        simp only [List.length_cons] at hlen
        omega
      obtain ⟨cks, hcks, hckslen, hcov⟩ := ih (rest.drop k) ep hmono2 hlen2
      refine ⟨⟨pyStrip (listSlice text t.s ep), t.s, ep⟩ :: cks, ?_, ?_, ?_⟩
      · simp only [chunkLoopF, ← hk, ← hep2, hskip]
        have hadv : ¬ (1 + k + 0 = 0) := by omega
        simp only [Nat.add_zero, if_neg (by omega : ¬ 1 + k = 0)]
        have hdrop : (t :: rest).drop (1 + k) = rest.drop k := by
          simp [List.drop_succ_cons, Nat.add_comm 1 k]
        rw [hdrop, hcks]
      · simp only [List.length_cons]
        have := List.length_drop k rest
        omega
      · intro u hu
        rcases List.mem_cons.mp hu with rfl | hmem
        · exact ⟨_, List.mem_cons_self _ _, le_refl _, hep⟩
        · have : u ∈ rest.take k ∨ u ∈ rest.drop k := by
            rw [← List.mem_append, List.take_append_drop]; exact hmem
          rcases this with hin | hin
          · refine ⟨_, List.mem_cons_self _ _, ?_, htake u hin⟩
            exact (posMono_mem h3 u (List.mem_of_mem_take hin)).1.trans' h2
          · obtain ⟨c, hc, hcs, hce⟩ := hcov u hin
            exact ⟨c, List.mem_cons_of_mem _ hc, hcs, hce⟩

theorem pySplitGo_all_ws :
    ∀ (l : List Char), (∀ c ∈ l, c.isWhitespace) → pySplitGo l [] = [] := by
  intro l
  induction l with
  | nil => simp [pySplitGo]
  | cons c rest ih =>
    intro h
    have hc : c.isWhitespace := h c (List.mem_cons_self c rest)
    simp only [pySplitGo, hc, if_pos rfl, List.isEmpty_nil, if_true]
    exact ih (fun d hd => h d (List.mem_cons_of_mem c hd))

/-! ### Embedding with retry: `_safe_create_embeddings` (rag.py lines 146-160) -/

/-- Python exceptions relevant to the pipeline.  `providerError` is whatever
exception the embedding provider raises; `embeddingError` is the wrapper
error type the specification postulates (no such class exists in the code,
which is exactly what the retry claims turn on). -/
inductive PyErr where
  | providerError (msg : String)
  | embeddingError (cause : String)
deriving DecidableEq, Repr

/-- Embedding vectors; their numeric content is irrelevant to every claim. -/
abbrev Vec := List Int

/-- The `for attempt in range(1, max_retries + 1)` loop of
`_safe_create_embeddings`: try the provider; on success return its vectors;
on failure re-raise (bare `raise`, so the provider's own exception) when
`attempt == max_retries`, otherwise move to the next attempt.  The fuel-0
case models the unreachable `return []` after the loop.  The second
component counts provider calls made. -/
def safeCreateGo (provider : Nat → Except PyErr (List Vec)) (maxRetries : Nat) :
    Nat → Nat → Except PyErr (List Vec) × Nat
  | _, 0 => (.ok [], 0)
  | attempt, fuel + 1 =>
    match provider attempt with
    | .ok v => (.ok v, 1)
    | .error e =>
      if attempt = maxRetries then (.error e, 1)
      else
        let r := safeCreateGo provider maxRetries (attempt + 1) fuel
        (r.1, r.2 + 1)

/-- Python `_safe_create_embeddings(texts)` with the provider call
`client.embeddings.create(input=texts, model=...)` abstracted as an oracle
indexed by the texts and the (1-based) attempt number.  `max_retries = 3`.
Note the function performs no validation of `texts` whatsoever: the empty
list flows into the provider call like any other input.  Returns the result
together with the number of provider calls made. -/
def safe_create_embeddings (provider : List String → Nat → Except PyErr (List Vec))
    (texts : List String) : Except PyErr (List Vec) × Nat :=
  safeCreateGo (provider texts) 3 1 3

/-! ### Upsert: `upsert_chunks` (rag.py lines 162-210) -/

/-- One chunk dict produced by `pdf_to_chunks`: chunk id, text and offsets. -/
structure PyChunk where
  chunk_id : String
  text : String
  start : Nat
  stop : Nat
  length : Nat
deriving DecidableEq, Repr

/-- The two shapes `upsert_chunks` can return: the early-exit dict
`upserted: 0` for an empty chunk list, and the summary string
`"upserted N chunks"` otherwise. -/
inductive UpsertResult where
  | dictRes (upserted : Nat)
  | strRes (s : String)
deriving DecidableEq, Repr

/-- External effects performed by one `upsert_chunks` call:
`create_index_if_not_exists` invocations, total embedding-provider calls,
and the chunk ids actually upserted into the index, in upsert order. -/
structure UpsertTrace where
  createIndexCalls : Nat
  providerCalls : Nat
  upserted : List String
deriving DecidableEq, Repr

/-- Python `_batch_iter(items, batch_size)` (rag.py lines 142-144): slices
`items[i : i + batch_size]` for `i = 0, batch_size, 2*batch_size, ...`,
paired with the slice's start index.  (Python raises `ValueError` on step 0;
no claim exercises `batch_size = 0`.) -/
def batchIterGo : List PyChunk → Nat → Nat → List (List PyChunk × Nat)
  | [], _, _ => []
  | x :: rest, bs, i =>
    ((x :: rest).take bs, i) :: batchIterGo (rest.drop (bs - 1)) bs (i + bs)
termination_by l bs i => l.length
decreasing_by
  simp only [List.length_cons, List.length_drop]
  omega

/-- The per-batch `try`/`except` body of the upsert loop: embed the batch's
texts through `_safe_create_embeddings`, raise `RuntimeError` on a length
mismatch, then upsert; any exception is caught, logged and the loop
continues with the next batch.  `upsertOk i` says whether `index.upsert`
succeeds for the batch starting at index `i`.  Returns
`(total_upserted, provider calls, upserted chunk ids)`; the metadata dict
attached to each vector (text, `post_id`, `source`, offsets) is not read by
any claim, so only the vector ids are traced. -/
def processBatches (provider : Nat → List String → Nat → Except PyErr (List Vec))
    (upsertOk : Nat → Bool) : List (List PyChunk × Nat) → Nat × Nat × List String
  | [] => (0, 0, [])
  | (batch, i) :: rest =>
    let texts := batch.map (fun c => c.text)
    let ids := batch.map (fun c => c.chunk_id)
    let emb := safe_create_embeddings (provider i) texts
    let r := processBatches provider upsertOk rest
    match emb.1 with
    | .error _ => (r.1, emb.2 + r.2.1, r.2.2)
    | .ok embeds =>
      if embeds.length ≠ texts.length then (r.1, emb.2 + r.2.1, r.2.2)
      else if upsertOk i then (batch.length + r.1, emb.2 + r.2.1, ids ++ r.2.2)
      else (r.1, emb.2 + r.2.1, r.2.2)

/-- Python `upsert_chunks(chunks, title, post_id, batch_size)`: the empty chunk
list short-circuits to the dict `upserted: 0` with no external effect;
otherwise the index is created if absent, every batch is processed, and the
summary string `"upserted N chunks"` counts only successfully upserted
chunks. -/
def upsert_chunks (provider : Nat → List String → Nat → Except PyErr (List Vec))
    (upsertOk : Nat → Bool) (chunks : List PyChunk) (title : String)
    (post_id : Option String) (batch_size : Nat) :
    UpsertResult × UpsertTrace :=
  if chunks.isEmpty then (.dictRes 0, ⟨0, 0, []⟩)
  else
    let r := processBatches provider upsertOk (batchIterGo chunks batch_size 0)
    (.strRes ("upserted " ++ toString r.1 ++ " chunks"), ⟨1, r.2.1, r.2.2⟩)

/-! ### Retrieval, prompt assembly, semantic search -/

/-- The metadata keys of a retrieval match that the code reads:
`text`/`content` (snippet), `source` (title) and `post_id` (owning
document).  A `none` field models an absent key. -/
structure MetaD where
  text : Option String
  content : Option String
  source : Option String
  post_id : Option String
deriving DecidableEq, Repr

/-- A normalized retrieval match: id, score, metadata. -/
structure RMatch where
  id : Option String
  score : Option Int
  metadata : MetaD
deriving DecidableEq, Repr

/-- External collaborators of `retrieval`: the query-embedding call and the
index query (vector, optional `post_id` filter, `top_k`). -/
structure RagEnv where
  embedQuery : String → Vec
  queryIndex : Vec → Option String → Nat → List RMatch

/-- External calls performed by one `retrieval` call: `pc.Index` handles,
`client.embeddings.create` calls and `index.query` calls. -/
structure RetrievalTrace where
  indexHandles : Nat
  embedCalls : Nat
  indexQueries : Nat
deriving DecidableEq, Repr

/-- Python `retrieval(query_text, post_id, top_k)` (rag.py lines 230-286): the
empty query short-circuits to `[]` before the index handle and the query
embedding; otherwise the query is embedded, the index queried (with a
`post_id` filter when given) and each match normalized to id/score/metadata.
The `include_metadata` flag is passed through to the index query unchanged
and never branches the control flow, so it is absorbed into the `queryIndex`
oracle. -/
def retrieval (env : RagEnv) (query_text : String) (post_id : Option String)
    (top_k : Nat) : List RMatch × RetrievalTrace :=
  if query_text = "" then ([], ⟨0, 0, 0⟩)
  else
    let emb := env.embedQuery query_text
    let ms := env.queryIndex emb post_id top_k
    (ms.map (fun m => ⟨m.id, m.score, m.metadata⟩), ⟨1, 1, 1⟩)

/-- Python truthy-`or` on an optional string: `a or b` falls through on
`None` and on the empty string. -/
def strOr (a : Option String) (b : String) : String :=
  match a with
  | some s => if s = "" then b else s
  | none => b

/-- The context block built for one match in `build_prompt`:
`"Source: " ++ source ++ "\n" ++ snippet ++ "\n---\n"` with
`source = metadata.get("source", "unknown")` and
`snippet = metadata.get("text") or metadata.get("content") or ""`. -/
def blockOf (c : RMatch) : String :=
  "Source: " ++ c.metadata.source.getD "unknown" ++ "\n" ++
    strOr c.metadata.text (strOr c.metadata.content "") ++ "\n---\n"

/-- The context-assembly loop of `build_prompt` (rag.py lines 294-302):
append each match's block in order, stopping before the first block that
would push the accumulated length over `max_context_chars`. -/
def buildContextGo (max_context_chars : Nat) (assembled : String) :
    List RMatch → String
  | [] => assembled
  | c :: rest =>
    let candidate := blockOf c
    if assembled.length + candidate.length > max_context_chars then assembled
    else buildContextGo max_context_chars (assembled ++ candidate) rest

/-- The assembled context of `build_prompt(query, contexts,
max_context_chars)`. -/
def buildContext (contexts : List RMatch) (max_context_chars : Nat) : String :=
  buildContextGo max_context_chars "" contexts

/-- Python `build_prompt` wraps the assembled context and the query into the fixed
instruction template. -/
def build_prompt (query : String) (contexts : List RMatch)
    (max_context_chars : Nat) : String :=
  "You are an assistant. Use the following context to answer the question " ++
    "of the user. Cite the Source lines when relevant.\n\nContext:\n" ++
    buildContext contexts max_context_chars ++
    "\n\nUser question:\n" ++ query ++
    "\n\nAnswer concisely and cite sources where useful."

/-- The `post_ids` set built by `semantic_search` (utils.py lines 167-173):
fold over the matches, inserting each truthy (`non-None`, non-empty)
`post_id` that is not already present.  The set's contents are represented
canonically as the duplicate-free list of its elements in insertion order;
how `list(...)` enumerates them is a separate concern (see `ValidSetEnum`). -/
def collectedIds (res : List RMatch) : List String :=
  res.foldl
    (fun acc c =>
      match c.metadata.post_id with
      | some pid => if pid ≠ "" ∧ pid ∉ acc then acc ++ [pid] else acc
      | none => acc)
    []

/-- A possible enumeration of a Python `set` by `list(...)`: on a
duplicate-free representation of the set's contents it yields some
duplicate-free listing of exactly those elements.  CPython's set iteration
order is hash-table order and is not specified (string hashing is even
randomized per process), so every such listing models a possible run. -/
def ValidSetEnum (enum : List String → List String) : Prop :=
  ∀ l : List String, l.Nodup → (enum l).Nodup ∧ ∀ x, x ∈ enum l ↔ x ∈ l

/-- Python `semantic_search(query)` (utils.py lines 163-174): retrieve with
`top_k=50` and no document filter, collect truthy `post_id`s into a set,
and return `list(post_ids)` — an enumeration of the set in set-iteration
order, modelled by the `enum` parameter. -/
def semantic_search (enum : List String → List String) (env : RagEnv)
    (query : String) : List String :=
  enum (collectedIds (retrieval env query none 50).1)

/-! ### The deletion wrapper (utils.py lines 81-83) -/

/-- The methods the class `RAGIndexer` defines (rag.py lines 76-312),
transcribed from the class body.  Python attribute lookup on a `RAGIndexer`
instance succeeds exactly for these names (the class has no `__getattr__`
and instances gain no further method attributes). -/
def ragIndexerMethods : List String :=
  ["__init__", "create_index_if_not_exists", "_extract_text_from_pdf",
   "pdf_to_chunks", "_batch_iter", "_safe_create_embeddings",
   "upsert_chunks", "upsert_pdf", "retrieval", "build_prompt"]

/-- Outcome of a Python attribute access followed by a call. -/
inductive PyCallResult where
  | attributeError (attr : String)
  | completed
deriving DecidableEq, Repr

/-- Python `delete_embeddings(post_id)` (utils.py lines 81-83): obtain the RAG
instance and evaluate `rag.delete_embeddings(post_id)`.  The attribute
access raises `AttributeError` when `RAGIndexer` defines no such method. -/
def delete_embeddings (post_id : String) : PyCallResult :=
  if ragIndexerMethods.contains "delete_embeddings" then .completed
  else .attributeError "delete_embeddings"

/-! ### Facts about context assembly -/

/-- Concatenation of the blocks of a match list, in order. -/
def concatBlocks : List RMatch → String
  | [] => ""
  | c :: rest => blockOf c ++ concatBlocks rest

theorem buildContextGo_length_le (maxC : Nat) :
    ∀ (ms : List RMatch) (acc : String), acc.length ≤ maxC →
      (buildContextGo maxC acc ms).length ≤ maxC := by
  intro ms
  induction ms with
  | nil => intro acc h; simpa [buildContextGo] using h
  | cons c rest ih =>
    intro acc h
    by_cases hb : acc.length + (blockOf c).length > maxC
    · simpa [buildContextGo, hb] using h
    · have : (acc ++ blockOf c).length ≤ maxC := by
        rw [String.length_append]; omega
      simpa [buildContextGo, hb] using ih (acc ++ blockOf c) this

theorem buildContextGo_blocks (maxC : Nat) :
    ∀ (ms : List RMatch) (acc : String),
      ∃ k, buildContextGo maxC acc ms = acc ++ concatBlocks (ms.take k) ∧
        ∀ c ts, ms.drop k = c :: ts →
          (buildContextGo maxC acc ms).length + (blockOf c).length > maxC := by
  intro ms
  induction ms with
  | nil =>
    intro acc
    refine ⟨0, by simp [buildContextGo, concatBlocks, String.append_empty], ?_⟩
    intro c ts h
    simp at h
  | cons c rest ih =>
    intro acc
    by_cases hb : acc.length + (blockOf c).length > maxC
    · refine ⟨0, by simp [buildContextGo, hb, concatBlocks, String.append_empty], ?_⟩
      intro d ts h
      simp only [List.drop_zero] at h
      cases h
      simp only [buildContextGo]
      rw [if_pos hb]
      exact hb
    · obtain ⟨k, hk, hstop⟩ := ih (acc ++ blockOf c)
      refine ⟨k + 1, ?_, ?_⟩
      · simp only [buildContextGo, List.take_succ_cons, concatBlocks]
        rw [if_neg hb, hk, String.append_assoc]
      · intro d ts h
        simp only [List.drop_succ_cons] at h
        have := hstop d ts h
        simp only [buildContextGo] at this ⊢
        rwa [if_neg hb]

theorem buildContextGo_stable (maxC : Nat) :
    ∀ (ms : List RMatch) (acc : String) (m : RMatch),
      (buildContextGo maxC acc ms).length + (blockOf m).length > maxC →
      buildContextGo maxC acc (ms ++ [m]) = buildContextGo maxC acc ms := by
  intro ms
  induction ms with
  | nil =>
    intro acc m h
    simp only [buildContextGo] at h ⊢
    simp [List.nil_append, buildContextGo, h]
  | cons c rest ih =>
    intro acc m h
    by_cases hb : acc.length + (blockOf c).length > maxC
    · simp only [buildContextGo, hb, if_pos hb, List.cons_append] at h ⊢
      simp [buildContextGo, hb]
    · simp only [buildContextGo, hb, if_neg hb, List.cons_append] at h ⊢
      exact ih (acc ++ blockOf c) m h

/-! ### Facts about the batched upsert loop -/

/-- Whether the batch `b = (chunks, start index)` succeeds end to end:
its embedding call returns vectors, their count matches the text count,
and its `index.upsert` succeeds. -/
def batchOk (provider : Nat → List String → Nat → Except PyErr (List Vec))
    (upsertOk : Nat → Bool) (b : List PyChunk × Nat) : Bool :=
  match (safe_create_embeddings (provider b.2) (b.1.map (fun c => c.text))).1 with
  | .error _ => false
  | .ok embeds =>
    (embeds.length == (b.1.map (fun c => c.text)).length) && upsertOk b.2

/-- The batch loop processes every batch independently: the count is the
total size of the successful batches, the provider is consulted for every
batch (also after failed ones), and the upserted ids are exactly those of
the successful batches, in order. -/
theorem processBatches_spec (provider : Nat → List String → Nat → Except PyErr (List Vec))
    (upsertOk : Nat → Bool) :
    ∀ bs : List (List PyChunk × Nat),
      (processBatches provider upsertOk bs).1 =
        (((bs.filter (batchOk provider upsertOk)).map (fun b => b.1.length)).sum) ∧
      (processBatches provider upsertOk bs).2.1 =
        ((bs.map (fun b =>
          (safe_create_embeddings (provider b.2) (b.1.map (fun c => c.text))).2)).sum) ∧
      (processBatches provider upsertOk bs).2.2 =
        ((bs.filter (batchOk provider upsertOk)).flatMap
          (fun b => b.1.map (fun c => c.chunk_id))) := by
  intro bs
  induction bs with
  | nil => exact ⟨rfl, rfl, rfl⟩
  | cons b rest ih =>
    obtain ⟨ih1, ih2, ih3⟩ := ih
    obtain ⟨batch, i⟩ := b
    cases hemb : (safe_create_embeddings (provider i) (batch.map (fun c => c.text))).1 with
    | error e =>
      have hok : batchOk provider upsertOk (batch, i) = false := by
        simp [batchOk, hemb]
      constructor
      · simp [processBatches, hemb, List.filter_cons, hok, ih1]
      constructor
      · simp [processBatches, hemb, ih2]
      · simp [processBatches, hemb, List.filter_cons, hok, ih3]
    | ok embeds =>
      by_cases hlen : embeds.length = batch.length
      · cases hup : upsertOk i with
        | false =>
          have hok : batchOk provider upsertOk (batch, i) = false := by
            simp [batchOk, hemb, hup]
          constructor
          · simp [processBatches, hemb, hlen, List.filter_cons, hok, ih1, hup]
          constructor
          · simp [processBatches, hemb, hlen, ih2, hup]
          · simp [processBatches, hemb, hlen, List.filter_cons, hok, ih3, hup]
        | true =>
          have hok : batchOk provider upsertOk (batch, i) = true := by
            simp [batchOk, hemb, hlen, hup]
          constructor
          · simp [processBatches, hemb, hlen, List.filter_cons, hok, ih1, hup]
          constructor
          · simp [processBatches, hemb, hlen, ih2, hup]
          · simp [processBatches, hemb, hlen, List.filter_cons, hok, ih3, hup]
      · have hok : batchOk provider upsertOk (batch, i) = false := by
          simp [batchOk, hemb, hlen]
        constructor
        · simp [processBatches, hemb, hlen, List.filter_cons, hok, ih1]
        constructor
        · simp [processBatches, hemb, hlen, ih2]
        · simp [processBatches, hemb, hlen, List.filter_cons, hok, ih3]

/-! ### Facts about the id set of semantic search -/

theorem collectedIds_foldl_mem (x : String) :
    ∀ (res : List RMatch) (acc : List String),
      (x ∈ res.foldl
        (fun acc c =>
          match c.metadata.post_id with
          | some pid => if pid ≠ "" ∧ pid ∉ acc then acc ++ [pid] else acc
          | none => acc) acc)
      ↔ x ∈ acc ∨ (x ≠ "" ∧ ∃ m ∈ res, m.metadata.post_id = some x) := by
  intro res
  induction res with
  | nil => intro acc; simp
  | cons c rest ih =>
    intro acc
    rw [List.foldl_cons, ih]
    have hstep :
        (x ∈ (match c.metadata.post_id with
          | some pid => if pid ≠ "" ∧ pid ∉ acc then acc ++ [pid] else acc
          | none => acc))
        ↔ x ∈ acc ∨ (x ≠ "" ∧ c.metadata.post_id = some x) := by
      cases hp : c.metadata.post_id with
      | none => simp [hp]
      | some pid =>
        by_cases hc : pid ≠ "" ∧ pid ∉ acc
        · simp only [hp, if_pos hc, List.mem_append, List.mem_singleton]
          constructor
          · rintro (hx | rfl)
            · exact Or.inl hx
            · exact Or.inr ⟨hc.1, rfl⟩
          · rintro (hx | ⟨hne, hpx⟩)
            · exact Or.inl hx
            · cases hpx; exact Or.inr rfl
        · simp only [hp, if_neg hc]
          push_neg at hc
          constructor
          · exact Or.inl
          · rintro (hx | ⟨hne, hpx⟩)
            · exact hx
            · cases hpx
              exact hc (fun h => absurd h hne)
    rw [hstep]
    constructor
    · rintro ((hx | hcx) | ⟨hne, m, hm, hpm⟩)
      · exact Or.inl hx
      · exact Or.inr ⟨hcx.1, c, List.mem_cons_self _ _, hcx.2⟩
      · exact Or.inr ⟨hne, m, List.mem_cons_of_mem _ hm, hpm⟩
    · rintro (hx | ⟨hne, m, hm, hpm⟩)
      · exact Or.inl (Or.inl hx)
      · rcases List.mem_cons.mp hm with rfl | hm2
        · exact Or.inl (Or.inr ⟨hne, hpm⟩)
        · exact Or.inr ⟨hne, m, hm2, hpm⟩

theorem collectedIds_mem (res : List RMatch) (x : String) :
    x ∈ collectedIds res ↔ (x ≠ "" ∧ ∃ m ∈ res, m.metadata.post_id = some x) := by
  have := collectedIds_foldl_mem x res []
  simpa [collectedIds] using this

theorem collectedIds_foldl_nodup :
    ∀ (res : List RMatch) (acc : List String), acc.Nodup →
      (res.foldl
        (fun acc c =>
          match c.metadata.post_id with
          | some pid => if pid ≠ "" ∧ pid ∉ acc then acc ++ [pid] else acc
          | none => acc) acc).Nodup := by
  intro res
  induction res with
  | nil => intro acc h; simpa using h
  | cons c rest ih =>
    intro acc h
    rw [List.foldl_cons]
    apply ih
    cases hp : c.metadata.post_id with
    | none => simpa using h
    | some pid =>
      by_cases hc : pid ≠ "" ∧ pid ∉ acc
      · simp only [if_pos hc]
        exact List.Nodup.append h (List.nodup_singleton pid)
          (by simpa [List.disjoint_singleton] using hc.2)
      · simpa [if_neg hc] using h

theorem collectedIds_nodup (res : List RMatch) : (collectedIds res).Nodup :=
  collectedIds_foldl_nodup res [] List.nodup_nil

/-- List reversal is a valid set enumeration (it witnesses one possible
CPython set iteration order). -/
theorem validSetEnum_reverse : ValidSetEnum List.reverse := by
  intro l h
  exact ⟨by simpa using h, fun x => by simp⟩

/-! ### Concrete fixtures: an index holding chunks of documents A, B, A -/

/-- Best-ranked chunk of document A. -/
def mA : RMatch := ⟨some "c1", some 9, ⟨some "tA", none, some "docA", some "A"⟩⟩

/-- Chunk of document B, ranked second. -/
def mB : RMatch := ⟨some "c2", some 8, ⟨some "tB", none, some "docB", some "B"⟩⟩

/-- Lower-ranked second chunk of document A. -/
def mA2 : RMatch := ⟨some "c3", some 7, ⟨some "tA2", none, some "docA", some "A"⟩⟩

/-- An environment whose index returns the ranked matches A, B, A. -/
def envABA : RagEnv := ⟨fun _ => [], fun _ _ _ => [mA, mB, mA2]⟩

/-- Recognizer for the specification's EmbeddingError wrapper shape. -/
def isEmbeddingError : Except PyErr (List Vec) → Bool
  | .error (.embeddingError _) => true
  | _ => false

/-- A provider that fails every attempt with the same provider exception. -/
def alwaysBoom : List String → Nat → Except PyErr (List Vec) :=
  fun _ _ => .error (.providerError "boom")

/-- A provider that fails the first attempt and then succeeds. -/
def failOnceProvider : List String → Nat → Except PyErr (List Vec) :=
  fun _ attempt => if attempt = 1 then .error (.providerError "transient") else .ok [[1]]

/-- A provider that succeeds on every input, including the empty list. -/
def alwaysOkProvider : List String → Nat → Except PyErr (List Vec) :=
  fun _ _ => .ok []

/-! ## Claim theorems -/

/-- C1: the specification claims that after a window ends at offset `end`,
the next window starts at the first token whose start offset is at least
`end - overlap`, so that chunking "AAAA BBBB CCCC DDDD" with `chunk_size=9`
and `overlap=4` yields the three overlapping chunks "AAAA BBBB",
"BBBB CCCC", "CCCC DDDD".  The code's advance scan instead starts at the
token immediately after the window (`next_i = j`), whose start offset
already satisfies the overlap target, so the overlap parameter never takes
effect: this evaluation shows the code produces exactly the two disjoint
chunks "AAAA BBBB" and "CCCC DDDD" on that input. -/
theorem chunker_overlap_scenario_eval :
    smart_chunk_text "AAAA BBBB CCCC DDDD".toList 9 4 =
      .ok [⟨"AAAA BBBB".toList, 0, 9⟩, ⟨"CCCC DDDD".toList, 10, 19⟩] := by rfl

/-- C2: the specification claims `delete_document(document_id)` removes all
embedding records of the document and is a safe no-op when none exist.  The
wrapper `delete_embeddings` in src/app/routers/utils.py calls
`rag.delete_embeddings(post_id)`, but the class `RAGIndexer` defines no
method of that name, so the call raises `AttributeError` for every
`post_id` — including a document with zero indexed chunks — and never
deletes anything. -/
theorem delete_embeddings_raises_attribute_error :
    delete_embeddings "doc1" = .attributeError "delete_embeddings" := by rfl

/-- C3 counterexample: the claim says `search_documents` returns document
ids in first-seen order of the ranked matches, so an index returning
matches from documents A, B, A must yield ["A", "B"].  The code returns
`list(post_ids)` where `post_ids` is a Python `set`, whose iteration order
is unconstrained: reversal is a valid set enumeration, and under it the
search over the A, B, A index returns ["B", "A"], not ["A", "B"]. -/
theorem semantic_search_set_order_cex :
    ValidSetEnum List.reverse ∧
      semantic_search List.reverse envABA "query" = ["B", "A"] :=
  ⟨validSetEnum_reverse, by rfl⟩

/-- C3 (amended): `search_documents` returns each matching document id —
those occurring as a non-empty `post_id` of some retrieved match — exactly
once, but in an unspecified set-iteration order rather than first-seen rank
order. -/
theorem semantic_search_ids_unique (enum : List String → List String)
    (h : ValidSetEnum enum) (env : RagEnv) (query : String) :
    (semantic_search enum env query).Nodup ∧
      ∀ x, x ∈ semantic_search enum env query ↔
        (x ≠ "" ∧ ∃ m ∈ (retrieval env query none 50).1, m.metadata.post_id = some x) := by
  constructor
  · exact (h _ (collectedIds_nodup _)).1
  · intro x
    exact ((h _ (collectedIds_nodup _)).2 x).trans (collectedIds_mem _ x)

/-- C3 witness: the amended theorem applied to the reversal enumeration and
the concrete A, B, A index. -/
theorem semantic_search_ids_unique_witness :
    ValidSetEnum List.reverse ∧ (semantic_search List.reverse envABA "query").Nodup :=
  ⟨validSetEnum_reverse,
   (semantic_search_ids_unique List.reverse validSetEnum_reverse envABA "query").1⟩

/-- C4: the context block assembled by `build_prompt` is the concatenation,
in ranking order, of the per-match blocks "Source: source, snippet, ---",
stopping before the first block that would push the accumulated length over
`max_context_chars`; the accumulated context never exceeds the budget, no
block is truncated mid-block, and appending one more lower-ranked match to
a list that already fills the budget leaves both the context and the full
prompt unchanged. -/
theorem build_context_budget (maxC : Nat) (ms : List RMatch) (m : RMatch)
    (query : String) :
    (buildContext ms maxC).length ≤ maxC ∧
    (∃ k, buildContext ms maxC = concatBlocks (ms.take k) ∧
      ∀ c ts, ms.drop k = c :: ts →
        (buildContext ms maxC).length + (blockOf c).length > maxC) ∧
    ((buildContext ms maxC).length + (blockOf m).length > maxC →
      buildContext (ms ++ [m]) maxC = buildContext ms maxC ∧
      build_prompt query (ms ++ [m]) maxC = build_prompt query ms maxC) := by
  refine ⟨buildContextGo_length_le maxC ms "" (by simp), ?_, ?_⟩
  · obtain ⟨k, hk, hstop⟩ := buildContextGo_blocks maxC ms ""
    exact ⟨k, hk.trans (String.empty_append _), hstop⟩
  · intro h
    have hstable := buildContextGo_stable maxC ms "" m h
    refine ⟨hstable, ?_⟩
    simp only [build_prompt, buildContext] at hstable ⊢
    rw [hstable]

/-- C4 witness: with a budget of 5 no block fits, so the context is empty,
the next block overflows the budget, and appending a further match leaves
the context unchanged. -/
theorem build_context_budget_witness :
    (buildContext [mA] 5).length + (blockOf mB).length > 5 ∧
      buildContext [mA, mB] 5 = buildContext [mA] 5 :=
  ⟨by decide, ((build_context_budget 5 [mA] mB "q").2.2 (by decide)).1⟩

/-- C5: for a non-empty chunk list, the batched upsert isolates failures per
batch: the embedding provider is consulted for every batch (also for the
batches after a failed one), the ids actually upserted are exactly those of
the end-to-end successful batches in order, and the returned summary string
counts exactly the chunks of those successful batches. -/
theorem upsert_batches_failure_isolation
    (provider : Nat → List String → Nat → Except PyErr (List Vec))
    (upsertOk : Nat → Bool) (c : PyChunk) (rest : List PyChunk) (title : String)
    (post_id : Option String) (batch_size : Nat) :
    (upsert_chunks provider upsertOk (c :: rest) title post_id batch_size).1 =
      .strRes ("upserted " ++
        toString ((((batchIterGo (c :: rest) batch_size 0).filter
          (batchOk provider upsertOk)).map (fun b => b.1.length)).sum) ++ " chunks") ∧
    (upsert_chunks provider upsertOk (c :: rest) title post_id batch_size).2.upserted =
      ((batchIterGo (c :: rest) batch_size 0).filter
        (batchOk provider upsertOk)).flatMap (fun b => b.1.map (fun ch => ch.chunk_id)) ∧
    (upsert_chunks provider upsertOk (c :: rest) title post_id batch_size).2.providerCalls =
      ((batchIterGo (c :: rest) batch_size 0).map (fun b =>
        (safe_create_embeddings (provider b.2) (b.1.map (fun ch => ch.text))).2)).sum := by
  obtain ⟨h1, h2, h3⟩ :=
    processBatches_spec provider upsertOk (batchIterGo (c :: rest) batch_size 0)
  refine ⟨?_, ?_, ?_⟩ <;> simp [upsert_chunks, h1, h2, h3]

/-- C6 counterexample: the claim says the final failure after three
attempts is re-raised as an EmbeddingError carrying the underlying cause.
The code performs a bare `raise` (and defines no EmbeddingError class at
all), so a provider failing all three attempts makes the call re-raise the
provider's own exception unwrapped. -/
theorem embed_retry_no_embedding_error_cex :
    safe_create_embeddings alwaysBoom ["x"] = (.error (.providerError "boom"), 3) ∧
    isEmbeddingError (safe_create_embeddings alwaysBoom ["x"]).1 = false :=
  ⟨by rfl, by rfl⟩

/-- C6 (amended): the embedding call retries the provider on any failure up
to 3 attempts in total; a call that fails fewer than 3 times and then
succeeds returns the vectors normally; after the third failed attempt the
last underlying provider exception is re-raised unchanged (not wrapped in
an EmbeddingError, which does not exist in the code). -/
theorem embed_retry_three_attempts
    (provider : List String → Nat → Except PyErr (List Vec)) (texts : List String)
    (v : List Vec) (err : Nat → PyErr) (k : Nat) :
    (safe_create_embeddings provider texts).2 ≤ 3 ∧
    (1 ≤ k → k ≤ 3 →
      (∀ a, 1 ≤ a → a < k → provider texts a = .error (err a)) →
      provider texts k = .ok v →
      safe_create_embeddings provider texts = (.ok v, k)) ∧
    ((∀ a, 1 ≤ a → a ≤ 3 → provider texts a = .error (err a)) →
      safe_create_embeddings provider texts = (.error (err 3), 3)) := by
  refine ⟨?_, ?_, ?_⟩
  · cases hp1 : provider texts 1 with
    | ok v1 => simp [safe_create_embeddings, safeCreateGo, hp1]
    | error e1 =>
      cases hp2 : provider texts 2 with
      | ok v2 => simp [safe_create_embeddings, safeCreateGo, hp1, hp2]
      | error e2 =>
        cases hp3 : provider texts 3 with
        | ok v3 => simp [safe_create_embeddings, safeCreateGo, hp1, hp2, hp3]
        | error e3 => simp [safe_create_embeddings, safeCreateGo, hp1, hp2, hp3]
  · intro hk1 hk3 hfail hsucc
    interval_cases k
    · simp [safe_create_embeddings, safeCreateGo, hsucc]
    · have h1 := hfail 1 (by omega) (by omega)
      simp [safe_create_embeddings, safeCreateGo, h1, hsucc]
    · have h1 := hfail 1 (by omega) (by omega)
      have h2 := hfail 2 (by omega) (by omega)
      simp [safe_create_embeddings, safeCreateGo, h1, h2, hsucc]
  · intro hfail
    have h1 := hfail 1 (by omega) (by omega)
    have h2 := hfail 2 (by omega) (by omega)
    have h3 := hfail 3 (by omega) (by omega)
    simp [safe_create_embeddings, safeCreateGo, h1, h2, h3]

/-- C6 witness: the amended theorem applied to a provider that fails once
and then succeeds (returns the vectors on attempt 2) and to a provider that
fails all three attempts (re-raises its own exception after 3 calls). -/
theorem embed_retry_three_attempts_witness :
    (safe_create_embeddings failOnceProvider ["x"]).2 ≤ 3 ∧
    safe_create_embeddings failOnceProvider ["x"] = (.ok [[1]], 2) ∧
    safe_create_embeddings alwaysBoom ["y"] = (.error (.providerError "boom"), 3) := by
  refine ⟨(embed_retry_three_attempts failOnceProvider ["x"] [[1]]
    (fun _ => .providerError "transient") 2).1, ?_, ?_⟩
  · exact (embed_retry_three_attempts failOnceProvider ["x"] [[1]]
      (fun _ => .providerError "transient") 2).2.1
      (by omega) (by omega) (fun a ha1 ha2 => by interval_cases a; rfl) (by rfl)
  · exact (embed_retry_three_attempts alwaysBoom ["y"] []
      (fun _ => .providerError "boom") 1).2.2 (fun a ha1 ha2 => rfl)

/-- C7 counterexample: the claim says calling the embedding operation on an
empty list fails fast with an error, without retry and without contacting
the provider.  The code performs no input validation: with an always-failing
provider the empty list is retried through all 3 provider calls, and with a
succeeding provider the empty-list call returns successfully after exactly
one provider call. -/
theorem embed_empty_list_contacts_provider_cex :
    (safe_create_embeddings alwaysBoom []).2 = 3 ∧
    (safe_create_embeddings alwaysOkProvider []).1 = .ok [] ∧
    (safe_create_embeddings alwaysOkProvider []).2 = 1 :=
  ⟨by rfl, by rfl, by rfl⟩

/-- C7 (amended): the embedding call applies no empty-list precondition:
the provider is always contacted at least once, a provider that succeeds on
the empty list makes the call return normally after one attempt, and a
provider that does not distinguish the empty list from a list of empty
strings makes the call behave identically on both — there is no distinct
empty-list error path. -/
theorem embed_empty_list_no_failfast
    (provider : List String → Nat → Except PyErr (List Vec)) (v : List Vec) :
    1 ≤ (safe_create_embeddings provider []).2 ∧
    (provider [] 1 = .ok v → safe_create_embeddings provider [] = (.ok v, 1)) ∧
    ((∀ a, provider [] a = provider [""] a) →
      safe_create_embeddings provider [] = safe_create_embeddings provider [""]) := by
  refine ⟨?_, ?_, ?_⟩
  · cases hp1 : provider [] 1 with
    | ok v1 => simp [safe_create_embeddings, safeCreateGo, hp1]
    | error e1 => simp [safe_create_embeddings, safeCreateGo, hp1]
  · intro h
    simp [safe_create_embeddings, safeCreateGo, h]
  · intro h
    have hfun : provider [] = provider [""] := funext h
    simp [safe_create_embeddings, hfun]

/-- C7 witness: the amended theorem applied to the always-succeeding
provider. -/
theorem embed_empty_list_no_failfast_witness :
    1 ≤ (safe_create_embeddings alwaysOkProvider []).2 ∧
      safe_create_embeddings alwaysOkProvider [] = (.ok [], 1) :=
  ⟨(embed_empty_list_no_failfast alwaysOkProvider []).1,
   (embed_empty_list_no_failfast alwaysOkProvider []).2.1 (by rfl)⟩

/-- C8: for `0 < overlap < chunk_size`, chunking terminates (the bounded
loop never exhausts its fuel and returns a result), emits at most one chunk
per whitespace-delimited token, and every token lies within the span of at
least one emitted chunk; empty or whitespace-only input yields zero chunks
without error. -/
theorem chunker_terminates_and_covers (text : List Char) (chunk_size overlap : Nat)
    (h1 : 0 < overlap) (h2 : overlap < chunk_size) :
    (∃ cks, smart_chunk_text text chunk_size overlap = .ok cks ∧
      cks.length ≤ (pySplit text).length ∧
      ∀ t ∈ tokenPositions text, ∃ c ∈ cks, c.start ≤ t.s ∧ t.e ≤ c.stop) ∧
    (text.all Char.isWhitespace → smart_chunk_text text chunk_size overlap = .ok []) := by
  have hcs : ¬ chunk_size = 0 := by omega
  constructor
  · cases htok : (pySplit text).isEmpty with
    | true =>
      refine ⟨[], ?_, ?_, ?_⟩
      · simp [smart_chunk_text, hcs, htok]
      · simp
      · intro t ht
        rw [tokenPositions, List.isEmpty_iff.mp htok] at ht
        simp [tokenPositionsGo] at ht
    | false =>
      obtain ⟨cks, hcks, hlen, hcov⟩ :=
        chunkLoopF_spec text chunk_size overlap
          (tokenPositionsGo text (pySplit text) 0).length
          (tokenPositionsGo text (pySplit text) 0) 0
          (tokenPositionsGo_posMono text (pySplit text) 0) (le_refl _)
      refine ⟨cks, ?_, ?_, ?_⟩
      · simp [smart_chunk_text, hcs, htok, hcks]
      · calc cks.length ≤ (tokenPositionsGo text (pySplit text) 0).length := hlen
          _ = (pySplit text).length := tokenPositionsGo_length text (pySplit text) 0
      · exact hcov
  · intro hws
    have hsplit : pySplit text = [] := by
      rw [pySplit]
      exact pySplitGo_all_ws text (by simpa [List.all_eq_true] using hws)
    simp [smart_chunk_text, hcs, hsplit]

/-- C8 witness: the theorem applied to the text "ab" with `chunk_size = 2`
and `overlap = 1`. -/
theorem chunker_terminates_and_covers_witness :
    0 < 1 ∧ 1 < 2 ∧
      ((∃ cks, smart_chunk_text "ab".toList 2 1 = .ok cks ∧
        cks.length ≤ (pySplit "ab".toList).length ∧
        ∀ t ∈ tokenPositions "ab".toList, ∃ c ∈ cks, c.start ≤ t.s ∧ t.e ≤ c.stop) ∧
      (("ab".toList).all Char.isWhitespace → smart_chunk_text "ab".toList 2 1 = .ok [])) :=
  ⟨by decide, by decide,
   chunker_terminates_and_covers "ab".toList 2 1 (by decide) (by decide)⟩

/-- C9: `retrieval` called with the empty query returns the empty list and
performs no external call: no index handle is obtained, no query embedding
is created and the index is never queried. -/
theorem retrieval_empty_query_short_circuit (env : RagEnv) (post_id : Option String)
    (top_k : Nat) :
    retrieval env "" post_id top_k = ([], ⟨0, 0, 0⟩) := rfl

/-- C10: upserting the empty chunk list returns the dict-shaped summary
`upserted: 0` with no external effect (no index creation, no provider call,
nothing upserted), while a non-empty chunk list yields the string-shaped
summary "upserted N chunks". -/
theorem upsert_empty_chunks_noop
    (provider : Nat → List String → Nat → Except PyErr (List Vec))
    (upsertOk : Nat → Bool) (title : String) (post_id : Option String)
    (batch_size : Nat) (c : PyChunk) (rest : List PyChunk) :
    upsert_chunks provider upsertOk [] title post_id batch_size =
      (.dictRes 0, ⟨0, 0, []⟩) ∧
    ∃ n : Nat, (upsert_chunks provider upsertOk (c :: rest) title post_id batch_size).1 =
      .strRes ("upserted " ++ toString n ++ " chunks") :=
  ⟨rfl, ⟨(processBatches provider upsertOk (batchIterGo (c :: rest) batch_size 0)).1, rfl⟩⟩

end Docgram
